import Mathlib

/-!
Shallow embedding of `env.py` (class `NetworkEnv`) from the GreenNetwork
repository, together with proofs about the behaviour of its operations.

Modelling conventions:
* Node identifiers, capacities, traffic demands and link usages are natural
  numbers (the Python code only ever manipulates non-negative integer values
  for these; `usage` is a float array but only ever holds sums of integer
  demands).
* Observation entries (`usage / capacity` ratios and open flags) are rational
  numbers, standing for the exact values of the Python float computations on
  these integer inputs.
* The two `np.random.shuffle` calls in `_build_topology` are modelled by
  passing the shuffled lists as parameters (`perm` for the shuffled node list,
  `order` for the shuffled candidate-edge list); theorems carry the hypotheses
  that `perm` is a permutation of `range numNodes` and that `order` is a
  permutation of the candidate list the code computes.
* `nx.shortest_path` on an unweighted graph is modelled by a fuelled
  breadth-first search over the adjacency of the open subgraph, returning
  `none` when no path exists (the `NetworkXNoPath` case).  The fuel is a bound
  on the number of queue operations, which is at most `1 + 2·|edges|` real
  steps; no claim below depends on which shortest path is chosen.
* Exceptions are modelled with `Option`: a raising call returns `none`
  together with the mutated object state, since a Python exception leaves all
  mutations performed so far in place.
-/

namespace GreenNet

/-- A link of the network: endpoints `u`, `v` and its `capacity` attribute
(as stored by `add_edge(u, v, capacity=...)`). -/
structure LinkE where
  u : Nat
  v : Nat
  cap : Nat
deriving DecidableEq, Repr, Inhabited

/-- `e` connects the unordered node pair `{x, y}`: the condition
`(x == u and y == v) or (x == v and y == u)` used in `_edge_index` and, for
edge containment, by `graph.has_edge`. -/
def linksNode (e : LinkE) (x y : Nat) : Prop :=
  (e.u = x ∧ e.v = y) ∨ (e.u = y ∧ e.v = x)

instance (e : LinkE) (x y : Nat) : Decidable (linksNode e x y) := by
  unfold linksNode; infer_instance

/-- `graph.has_edge(u, v)` on the edge-list representation. -/
def hasEdge (g : List LinkE) (x y : Nat) : Bool :=
  g.any fun e => decide (linksNode e x y)

/-- `graph.degree[x]`: number of link endpoints at node `x` (graphs built by
`_build_topology` are loop-free, so this agrees with the networkx degree). -/
def degree : List LinkE → Nat → Nat
  | [], _ => 0
  | e :: es, x =>
      (if e.u = x then 1 else 0) + (if e.v = x then 1 else 0) + degree es x

/-- Phase 1 of `_build_topology`: walk the shuffled node list `l` and add a
link (with capacity `cap`) between each pair of consecutive nodes unless the
link is already present. -/
def buildPath (cap : Nat) (g : List LinkE) : List Nat → List LinkE
  | x :: y :: rest =>
      buildPath cap (if hasEdge g x y then g else g ++ [⟨x, y, cap⟩]) (y :: rest)
  | _ => g

/-- The `possible_edges` list of `_build_topology`: all pairs `(i, j)` with
`i < j < n` that are not yet edges of `g`, enumerated in the nested-loop
order of the code. -/
def possibleEdges (g : List LinkE) (n : Nat) : List (Nat × Nat) :=
  (List.range n).flatMap fun i =>
    ((List.range n).filter fun j => i < j).filterMap fun j =>
      if hasEdge g i j then none else some (i, j)

/-- Phase 2 of `_build_topology`: for each candidate pair (in shuffled order)
add the link iff both endpoints currently have degree strictly below
`maxI`. -/
def addExtra (maxI cap : Nat) (g : List LinkE) : List (Nat × Nat) → List LinkE
  | [] => g
  | (x, y) :: rest =>
      addExtra maxI cap
        (if degree g x < maxI ∧ degree g y < maxI then g ++ [⟨x, y, cap⟩] else g)
        rest

/-- `_build_topology`: the full generated edge list, given the two shuffle
outcomes `perm` (shuffled `list(range(num_nodes))`) and `order` (shuffled
`possible_edges`). -/
def buildTopology (n maxI cap : Nat) (perm : List Nat) (order : List (Nat × Nat)) :
    List LinkE :=
  addExtra maxI cap (buildPath cap [] perm) order

/-- Number of consecutive pairs of `l` containing `x` (a counting device for
the phase-1 degree analysis; not part of the source). -/
def countPairs : List Nat → Nat → Nat
  | x :: y :: rest, z => (if x = z ∨ y = z then 1 else 0) + countPairs (y :: rest) z
  | _, _ => 0

/-- Two nodes are adjacent in the edge list `g`. -/
def Adj (g : List LinkE) (x y : Nat) : Prop :=
  ∃ e ∈ g, linksNode e x y

/-- Connectivity relation of the edge list `g`. -/
def Reach (g : List LinkE) : Nat → Nat → Prop :=
  Relation.ReflTransGen (Adj g)

/-- The mutable state of a `NetworkEnv` instance.  `edges` is `edge_list`
(paired with the per-edge `capacity` attribute of `self.graph`), `traffic`
the demand matrix, `linkOpen` the `link_open` array, `usage` the `usage`
array, `currentStep` the step counter. -/
structure Env where
  numNodes : Nat
  maxInterfaces : Nat
  maxCapacity : Nat
  maxSteps : Nat
  edges : List LinkE
  traffic : Nat → Nat → Nat
  linkOpen : List Nat
  usage : List Nat
  currentStep : Nat

/-- The loop of `_update_link_usage` that builds `G_open`: walk `edge_list`
in order, keeping edge `i` iff `link_open[i] == 1`.  Returns `none` when
`link_open` runs out before the edges do (the Python `IndexError`). -/
def openEdgesAux : List LinkE → List Nat → Option (List LinkE)
  | [], _ => some []
  | _ :: _, [] => none
  | e :: es, b :: bs =>
      match openEdgesAux es bs with
      | none => none
      | some rest => some (if b = 1 then e :: rest else rest)

/-- Neighbours of `x` in the open subgraph `oes` (adjacency of `G_open`). -/
def adjOf (oes : List LinkE) (x : Nat) : List Nat :=
  oes.filterMap fun e =>
    if e.u = x then some e.v else if e.v = x then some e.u else none

/-- Model of `nx.shortest_path(G_open, source, target)` for the unweighted
graph `G_open`: breadth-first search over `adj`, keeping a queue of partial
paths in reverse (current node first) and the list of already-enqueued nodes.
`fuel` bounds the number of iterations; callers pass a bound larger than the
total number of queue operations, so exhaustion never occurs in the modelled
calls.  Returns `none` exactly in the `NetworkXNoPath` case. -/
def bfs (adj : Nat → List Nat) (t : Nat) : Nat → List (List Nat) → List Nat → Option (List Nat)
  | 0, _, _ => none
  | _ + 1, [], _ => none
  | fuel + 1, p :: qrest, visited =>
      match p with
      | [] => bfs adj t fuel qrest visited
      | x :: _ =>
          if x = t then some p.reverse
          else
            let nbrs := (adj x).filter fun w => !(visited.contains w)
            bfs adj t fuel (qrest ++ nbrs.map fun w => w :: p) (visited ++ nbrs)

/-- `_edge_index` recursion with running index `i`. -/
def edgeIndexAux : List LinkE → Nat → Nat → Nat → Option Nat
  | [], _, _, _ => none
  | e :: es, x, y, i =>
      if linksNode e x y then some i else edgeIndexAux es x y (i + 1)

/-- `_edge_index(u, v)`: index of the edge joining `u` and `v` (in either
orientation) in `edge_list`, or `None`. -/
def edgeIndex (es : List LinkE) (x y : Nat) : Option Nat :=
  edgeIndexAux es x y 0

/-- The inner loop of `_update_link_usage` step 3: for each consecutive pair
of `path`, look up its edge index and add the demand `d` to that usage
entry. -/
def addPathUsage (es : List LinkE) (d : Nat) : List Nat → List Nat → List Nat
  | x :: y :: rest, us =>
      let us2 :=
        match edgeIndex es x y with
        | some idx => us.set idx (us.getD idx 0 + d)
        | none => us
      addPathUsage es d (y :: rest) us2
  | _, us => us

/-- The ordered pairs `(i, j)` enumerated by the nested demand loop of
`_update_link_usage`. -/
def allPairs (n : Nat) : List (Nat × Nat) :=
  (List.range n).flatMap fun i => (List.range n).map fun j => (i, j)

/-- Fuel bound passed to the BFS model: a BFS enqueues each node at most
once per parallel edge, so it performs at most `1 + 2·|es|` pops. -/
def bfsFuel (n : Nat) (es : List LinkE) : Nat :=
  2 * es.length + n + 2

/-- Steps 2–3 of `_update_link_usage`: starting from the all-zero usage
vector, route every positive off-diagonal demand along a shortest path of
the open subgraph `oes` (when one exists) and accumulate it on the edges of
that path. -/
def routeAllDemands (n : Nat) (es : List LinkE) (tr : Nat → Nat → Nat)
    (oes : List LinkE) : List Nat :=
  (allPairs n).foldl
    (fun us pr =>
      if tr pr.1 pr.2 > 0 ∧ pr.1 ≠ pr.2 then
        match bfs (adjOf oes) pr.2 (bfsFuel n es) [[pr.1]] [pr.1] with
        | some path => addPathUsage es (tr pr.1 pr.2) path us
        | none => us
      else us)
    (List.replicate es.length 0)

/-- `_update_link_usage`: zero the usage vector, build the open subgraph and
re-route all demands.  The `Bool` is `false` on the `IndexError` path (a
`link_open` shorter than `edge_list`), in which case usage has already been
zeroed but no routing happens. -/
def updateLinkUsage (env : Env) : Env × Bool :=
  match openEdgesAux env.edges env.linkOpen with
  | none => ({ env with usage := List.replicate env.edges.length 0 }, false)
  | some oes =>
      ({ env with usage := routeAllDemands env.numNodes env.edges env.traffic oes }, true)

/-- `_get_observation`: for each edge emit `usage/capacity` (`0` when the
capacity is `0`) followed by the raw `link_open` entry.  The lists always
have length at least `edge_list`'s in the modelled calls; the catch-all
branch is unreachable there. -/
def getObservation : List LinkE → List Nat → List Nat → List ℚ
  | e :: es, x :: xs, b :: bs =>
      (if e.cap > 0 then (x : ℚ) / (e.cap : ℚ) else 0) :: (b : ℚ) ::
        getObservation es xs bs
  | _, _, _ => []

/-- `_count_overloaded_links`: count edges with `usage[i] > cap`.  (`usage`
always has the same length as `edge_list` at every call site.) -/
def countOverloaded : List LinkE → List Nat → Nat
  | e :: es, x :: xs => (if x > e.cap then 1 else 0) + countOverloaded es xs
  | _, _ => 0

/-- The count of links whose usage strictly exceeds their capacity, phrased
the way the spec phrases it (`usage > capacity`, one per link). -/
def specOverloadCount (es : List LinkE) (us : List Nat) : Nat :=
  ((es.zip us).filter fun p => decide (p.1.cap < p.2)).length

/-- `step(action)`: increment the counter, replace `link_open` by the action,
recompute usage, count overloads, and return observation, reward
`-overloaded`, `done = current_step >= max_steps` and the info count.  The
first component is the object state after the call; the second is `none`
when the call raises (the `IndexError` of a too-short action), in which case
the mutations performed before the raise remain visible in the state. -/
def stepModel (env : Env) (action : List Nat) : Env × Option (List ℚ × Int × Bool × Nat) :=
  match updateLinkUsage { env with currentStep := env.currentStep + 1, linkOpen := action } with
  | (env2, false) => (env2, none)
  | (env2, true) =>
      (env2,
        some (getObservation env2.edges env2.usage env2.linkOpen,
          -((countOverloaded env2.edges env2.usage : Nat) : Int),
          decide (env2.currentStep ≥ env2.maxSteps),
          countOverloaded env2.edges env2.usage))

/-- `reset()`: zero the counter, install a fresh demand matrix (`raw` models
the `np.random.randint` draw; the diagonal is then zeroed), zero usage, open
every link, re-route, and return the initial observation. -/
def resetModel (env : Env) (raw : Nat → Nat → Nat) : Env × List ℚ :=
  let env1 :=
    { env with
      currentStep := 0
      traffic := fun i j => if i = j then 0 else raw i j
      usage := List.replicate env.edges.length 0
      linkOpen := List.replicate env.edges.length 1 }
  let env2 := (updateLinkUsage env1).1
  (env2, getObservation env2.edges env2.usage env2.linkOpen)

/-- `__init__`: build the topology and the initial state.  The constructor
performs no validation of its arguments and always succeeds, hence the
unconditional `some`.  In the source `self.traffic` is `None` and
`self.link_open` is not yet assigned; both are first installed by `reset()`
(or, for `link_open`, by `step()`) before any use, so they are modelled here
by inert placeholders (zero demand, empty list). -/
def initEnv (numNodes maxInterfaces maxCapacity maxSteps : Nat)
    (perm : List Nat) (order : List (Nat × Nat)) : Option Env :=
  some
    { numNodes := numNodes
      maxInterfaces := maxInterfaces
      maxCapacity := maxCapacity
      maxSteps := maxSteps
      edges := buildTopology numNodes maxInterfaces maxCapacity perm order
      traffic := fun _ _ => 0
      linkOpen := []
      usage := List.replicate (buildTopology numNodes maxInterfaces maxCapacity perm order).length 0
      currentStep := 0 }

/-- Whether distinct positions of `edge_list` always hold distinct unordered
node pairs.  `_build_topology` guarantees this (networkx graphs have no
parallel edges); it is the hypothesis under which `_edge_index` is a correct
inverse of the edge enumeration. -/
def edgesDistinct (es : List LinkE) : Prop :=
  ∀ k1, k1 < es.length → ∀ k2, k2 < es.length →
    linksNode (es.getD k1 default) (es.getD k2 default).u (es.getD k2 default).v →
    k1 = k2

instance (es : List LinkE) : Decidable (edgesDistinct es) := by
  unfold edgesDistinct; infer_instance

/-- A concrete two-node environment used by the witness theorems: one link
`0 – 1` of capacity `10` and a single demand `0 → 1` of `15`. -/
def envW : Env :=
  { numNodes := 2
    maxInterfaces := 4
    maxCapacity := 10
    maxSteps := 10
    edges := [⟨0, 1, 10⟩]
    traffic := fun i j => if i = 0 ∧ j = 1 then 15 else 0
    linkOpen := [1]
    usage := [0]
    currentStep := 0 }

/-- `envW` with a horizon of one step, so that `done` latches immediately. -/
def envD : Env :=
  { envW with maxSteps := 1 }

/-- `envW` with a stale usage vector and step counter, used to witness
statelessness of the routing computation. -/
def envW2 : Env :=
  { envW with usage := [99], currentStep := 5 }

/-! ### Generic list helpers -/

theorem getD_set_ne {α : Type} (d a : α) :
    ∀ (l : List α) (k i : Nat), k ≠ i → (l.set k a).getD i d = l.getD i d := by
  intro l
  induction l with
  | nil => intro k i _; rfl
  | cons h t ih =>
      intro k i hki
      cases k with
      | zero =>
          cases i with
          | zero => exact absurd rfl hki
          | succ i2 => rfl
      | succ k2 =>
          cases i with
          | zero => rfl
          | succ i2 =>
              have : k2 ≠ i2 := fun hh => hki (by rw [hh])
              simpa [List.getD_cons_succ] using ih k2 i2 this

theorem getD_replicate_lt {α : Type} (a d : α) :
    ∀ (n i : Nat), i < n → (List.replicate n a).getD i d = a := by
  intro n
  induction n with
  | zero => intro i h; omega
  | succ m ih =>
      intro i h
      cases i with
      | zero => rfl
      | succ i2 => simpa [List.replicate_succ] using ih i2 (by omega)

theorem getD_replicate_zero : ∀ (n i : Nat), (List.replicate n (0 : Nat)).getD i 0 = 0 := by
  intro n i
  by_cases h : i < n
  · exact getD_replicate_lt _ _ _ _ h
  · exact List.getD_eq_default _ _ (by simpa using Nat.le_of_not_lt h)

/-! ### Facts about the open-subgraph construction -/

theorem openEdgesAux_none_of_short :
    ∀ (es : List LinkE) (lo : List Nat), lo.length < es.length → openEdgesAux es lo = none := by
  intro es
  induction es with
  | nil => intro lo h; simp at h
  | cons e es ih =>
      intro lo h
      cases lo with
      | nil => rfl
      | cons b bs =>
          have hb : bs.length < es.length := by simpa using h
          simp [openEdgesAux, ih bs hb]

theorem openEdgesAux_some_le :
    ∀ (es : List LinkE) (lo : List Nat) (oes : List LinkE),
      openEdgesAux es lo = some oes → es.length ≤ lo.length := by
  intro es
  induction es with
  | nil => intro lo oes _; simp
  | cons e es ih =>
      intro lo oes h
      cases lo with
      | nil => simp [openEdgesAux] at h
      | cons b bs =>
          simp only [openEdgesAux] at h
          cases hr : openEdgesAux es bs with
          | none => rw [hr] at h; simp at h
          | some rest =>
              have := ih bs rest hr
              simpa using Nat.succ_le_succ this

theorem openEdgesAux_zeros :
    ∀ es : List LinkE, openEdgesAux es (List.replicate es.length 0) = some [] := by
  intro es
  induction es with
  | nil => rfl
  | cons e es ih => simp [List.replicate_succ, openEdgesAux, ih]

theorem openEdgesAux_ones :
    ∀ es : List LinkE, openEdgesAux es (List.replicate es.length 1) = some es := by
  intro es
  induction es with
  | nil => rfl
  | cons e es ih => simp [List.replicate_succ, openEdgesAux, ih]

theorem openEdgesAux_mem :
    ∀ (es : List LinkE) (lo : List Nat) (oes : List LinkE),
      openEdgesAux es lo = some oes →
      ∀ e ∈ oes, ∃ k, k < es.length ∧ es.getD k default = e ∧ lo.getD k 0 = 1 := by
  intro es
  induction es with
  | nil =>
      intro lo oes h e he
      simp only [openEdgesAux, Option.some.injEq] at h
      subst h; simp at he
  | cons e0 es ih =>
      intro lo oes h e he
      cases lo with
      | nil => simp [openEdgesAux] at h
      | cons b bs =>
          simp only [openEdgesAux] at h
          cases hr : openEdgesAux es bs with
          | none => rw [hr] at h; simp at h
          | some rest =>
              rw [hr] at h
              simp only [Option.some.injEq] at h
              subst h
              by_cases hb : b = 1
              · rw [if_pos hb] at he
                rcases List.mem_cons.1 he with he0 | hrest
                · exact ⟨0, by simp, by simp [he0.symm], by simp [hb]⟩
                · obtain ⟨k, hk, hget, hlo⟩ := ih bs rest hr e hrest
                  exact ⟨k + 1, by simpa using Nat.succ_lt_succ hk,
                    by simpa using hget, by simpa using hlo⟩
              · rw [if_neg hb] at he
                obtain ⟨k, hk, hget, hlo⟩ := ih bs rest hr e he
                exact ⟨k + 1, by simpa using Nat.succ_lt_succ hk,
                  by simpa using hget, by simpa using hlo⟩

/-! ### Projection facts about `updateLinkUsage` and `stepModel` -/

theorem updateLinkUsage_edges (env : Env) : (updateLinkUsage env).1.edges = env.edges := by
  unfold updateLinkUsage
  cases openEdgesAux env.edges env.linkOpen <;> rfl

theorem updateLinkUsage_linkOpen (env : Env) :
    (updateLinkUsage env).1.linkOpen = env.linkOpen := by
  unfold updateLinkUsage
  cases openEdgesAux env.edges env.linkOpen <;> rfl

theorem updateLinkUsage_currentStep (env : Env) :
    (updateLinkUsage env).1.currentStep = env.currentStep := by
  unfold updateLinkUsage
  cases openEdgesAux env.edges env.linkOpen <;> rfl

theorem updateLinkUsage_maxSteps (env : Env) :
    (updateLinkUsage env).1.maxSteps = env.maxSteps := by
  unfold updateLinkUsage
  cases openEdgesAux env.edges env.linkOpen <;> rfl

theorem updateLinkUsage_numNodes (env : Env) :
    (updateLinkUsage env).1.numNodes = env.numNodes := by
  unfold updateLinkUsage
  cases openEdgesAux env.edges env.linkOpen <;> rfl

theorem updateLinkUsage_traffic (env : Env) :
    (updateLinkUsage env).1.traffic = env.traffic := by
  unfold updateLinkUsage
  cases openEdgesAux env.edges env.linkOpen <;> rfl

theorem updateLinkUsage_usage (env : Env) :
    (updateLinkUsage env).1.usage =
      match openEdgesAux env.edges env.linkOpen with
      | none => List.replicate env.edges.length 0
      | some oes => routeAllDemands env.numNodes env.edges env.traffic oes := by
  unfold updateLinkUsage
  cases openEdgesAux env.edges env.linkOpen <;> rfl

theorem updateLinkUsage_flag (env : Env) :
    (updateLinkUsage env).2 = (openEdgesAux env.edges env.linkOpen).isSome := by
  unfold updateLinkUsage
  cases openEdgesAux env.edges env.linkOpen <;> rfl

theorem stepModel_fst (env : Env) (action : List Nat) :
    (stepModel env action).1 =
      (updateLinkUsage { env with currentStep := env.currentStep + 1, linkOpen := action }).1 := by
  unfold stepModel
  rcases hu : updateLinkUsage { env with currentStep := env.currentStep + 1, linkOpen := action }
    with ⟨env2, flag⟩
  cases flag <;> simp [hu]

theorem stepModel_some_inv (env : Env) (action : List Nat) (obs : List ℚ) (r : Int)
    (d : Bool) (info : Nat) (h : (stepModel env action).2 = some (obs, r, d, info)) :
    (updateLinkUsage { env with currentStep := env.currentStep + 1, linkOpen := action }).2 = true
    ∧ obs = getObservation (stepModel env action).1.edges (stepModel env action).1.usage
        (stepModel env action).1.linkOpen
    ∧ r = -((countOverloaded (stepModel env action).1.edges (stepModel env action).1.usage : Nat) : Int)
    ∧ d = decide ((stepModel env action).1.currentStep ≥ (stepModel env action).1.maxSteps)
    ∧ info = countOverloaded (stepModel env action).1.edges (stepModel env action).1.usage := by
  rcases hu : updateLinkUsage { env with currentStep := env.currentStep + 1, linkOpen := action }
    with ⟨env2, flag⟩
  cases flag with
  | false =>
      have hsnd : (stepModel env action).2 = none := by unfold stepModel; rw [hu]
      rw [hsnd] at h; simp at h
  | true =>
      have hfst : (stepModel env action).1 = env2 := by unfold stepModel; rw [hu]
      have hsnd : (stepModel env action).2 =
          some (getObservation env2.edges env2.usage env2.linkOpen,
            -((countOverloaded env2.edges env2.usage : Nat) : Int),
            decide (env2.currentStep ≥ env2.maxSteps),
            countOverloaded env2.edges env2.usage) := by
        unfold stepModel; rw [hu]
      rw [hsnd] at h
      simp only [Option.some.injEq, Prod.mk.injEq] at h
      obtain ⟨ho, hr, hd, hi⟩ := h
      refine ⟨by simp [hu], ?_, ?_, ?_, ?_⟩ <;> rw [hfst]
      exacts [ho.symm, hr.symm, hd.symm, hi.symm]

theorem stepModel_none_of_flag (env : Env) (action : List Nat)
    (h : (updateLinkUsage { env with currentStep := env.currentStep + 1, linkOpen := action }).2 = false) :
    (stepModel env action).2 = none := by
  rcases hu : updateLinkUsage { env with currentStep := env.currentStep + 1, linkOpen := action }
    with ⟨env2, flag⟩
  rw [hu] at h
  cases flag with
  | false => unfold stepModel; rw [hu]
  | true => simp at h

theorem stepModel_some_of_flag (env : Env) (action : List Nat)
    (h : (updateLinkUsage { env with currentStep := env.currentStep + 1, linkOpen := action }).2 = true) :
    ((stepModel env action).2).isSome = true := by
  rcases hu : updateLinkUsage { env with currentStep := env.currentStep + 1, linkOpen := action }
    with ⟨env2, flag⟩
  rw [hu] at h
  cases flag with
  | false => simp at h
  | true =>
      have hsnd : (stepModel env action).2 =
          some (getObservation env2.edges env2.usage env2.linkOpen,
            -((countOverloaded env2.edges env2.usage : Nat) : Int),
            decide (env2.currentStep ≥ env2.maxSteps),
            countOverloaded env2.edges env2.usage) := by
        unfold stepModel; rw [hu]
      simp [hsnd]

/-! ### Length preservation through routing -/

theorem addPathUsage_length (es : List LinkE) (d : Nat) :
    ∀ (p : List Nat) (us : List Nat), (addPathUsage es d p us).length = us.length := by
  intro p
  induction p with
  | nil => intro us; rfl
  | cons x t ih =>
      intro us
      cases t with
      | nil => rfl
      | cons y rest =>
          simp only [addPathUsage]
          cases edgeIndex es x y with
          | none => exact ih us
          | some idx => simpa [List.length_set] using ih (us.set idx (us.getD idx 0 + d))

theorem routeAllDemands_length (n : Nat) (es : List LinkE) (tr : Nat → Nat → Nat)
    (oes : List LinkE) : (routeAllDemands n es tr oes).length = es.length := by
  unfold routeAllDemands
  have hstep : ∀ (prs : List (Nat × Nat)) (us : List Nat),
      (prs.foldl
        (fun us pr =>
          if tr pr.1 pr.2 > 0 ∧ pr.1 ≠ pr.2 then
            match bfs (adjOf oes) pr.2 (bfsFuel n es) [[pr.1]] [pr.1] with
            | some path => addPathUsage es (tr pr.1 pr.2) path us
            | none => us
          else us)
        us).length = us.length := by
    intro prs
    induction prs with
    | nil => intro us; rfl
    | cons pr prs ih =>
        intro us
        rw [List.foldl_cons, ih]
        by_cases hc : tr pr.1 pr.2 > 0 ∧ pr.1 ≠ pr.2
        · simp only [if_pos hc]
          cases bfs (adjOf oes) pr.2 (bfsFuel n es) [[pr.1]] [pr.1] with
          | none => rfl
          | some path => exact addPathUsage_length es (tr pr.1 pr.2) path us
        · simp [hc]
  rw [hstep, List.length_replicate]

theorem updateLinkUsage_usage_length (env : Env) :
    (updateLinkUsage env).1.usage.length = env.edges.length := by
  rw [updateLinkUsage_usage]
  cases openEdgesAux env.edges env.linkOpen with
  | none => simp
  | some oes => simp [routeAllDemands_length]

/-! ### The overload count -/

theorem countOverloaded_eq_spec :
    ∀ (es : List LinkE) (us : List Nat), countOverloaded es us = specOverloadCount es us := by
  intro es
  induction es with
  | nil => intro us; cases us <;> rfl
  | cons e es ih =>
      intro us
      cases us with
      | nil => rfl
      | cons x xs =>
          have hrec := ih xs
          unfold countOverloaded specOverloadCount
          unfold specOverloadCount at hrec
          rw [List.zip_cons_cons, List.filter_cons]
          by_cases hx : e.cap < x
          · rw [if_pos hx, if_pos (by simpa using hx), List.length_cons, hrec]
            omega
          · rw [if_neg hx, if_neg (by simpa using hx), hrec]
            omega

theorem countOverloaded_replicate_zero (es : List LinkE) (n : Nat) :
    countOverloaded es (List.replicate n 0) = 0 := by
  induction es generalizing n with
  | nil => rfl
  | cons e es ih =>
      cases n with
      | zero => rfl
      | succ m => simpa [List.replicate_succ, countOverloaded] using ih m

/-- C1: for every successful `step(action)` call the returned reward is the
additive inverse of the number of links with `usage > capacity` (a pure
count, never magnitude-weighted), and the `overloaded_links` info field is
that same count. -/
theorem step_reward_overload_count (env : Env) (action : List Nat) (obs : List ℚ)
    (r : Int) (d : Bool) (info : Nat)
    (h : (stepModel env action).2 = some (obs, r, d, info)) :
    r = -((specOverloadCount env.edges (stepModel env action).1.usage : Nat) : Int)
    ∧ info = specOverloadCount env.edges (stepModel env action).1.usage := by
  obtain ⟨-, -, hr, -, hinfo⟩ := stepModel_some_inv env action obs r d info h
  have hedges : (stepModel env action).1.edges = env.edges := by
    rw [stepModel_fst]; exact updateLinkUsage_edges _
  have hco : countOverloaded (stepModel env action).1.edges (stepModel env action).1.usage
      = specOverloadCount env.edges (stepModel env action).1.usage := by
    rw [hedges, countOverloaded_eq_spec]
  exact ⟨by rw [hr, hco], by rw [hinfo, hco]⟩

/-- Witness for C1 on the concrete environment `envW`. -/
theorem step_reward_overload_count_witness :
    (-1 : Int) = -((specOverloadCount envW.edges (stepModel envW [1]).1.usage : Nat) : Int)
    ∧ 1 = specOverloadCount envW.edges (stepModel envW [1]).1.usage :=
  step_reward_overload_count envW [1]
    (getObservation (stepModel envW [1]).1.edges (stepModel envW [1]).1.usage
      (stepModel envW [1]).1.linkOpen)
    (-1) false 1 rfl

/-- C2 counterexample: an action of the wrong length (here longer than the
single link of `envW`) does not raise any error — `step` simply succeeds, so
no `InvalidActionError` is reported at the start of `step()`. -/
theorem step_wrong_length_no_error_cex :
    ([1, 1] : List Nat).length ≠ envW.edges.length
    ∧ ((stepModel envW [1, 1]).2).isSome = true := by
  constructor
  · decide
  · exact stepModel_some_of_flag envW [1, 1] (by decide)

/-- C2 (amended): `step()` performs no action-length validation.  An action
shorter than the link count makes the call fail with an index error, but only
after the step counter has been incremented, the link-state vector replaced
by the action, and the usage vector zeroed — i.e. the state is mutated before
the failure is reported. -/
theorem step_short_action_mutates (env : Env) (action : List Nat)
    (h : action.length < env.edges.length) :
    (stepModel env action).2 = none
    ∧ (stepModel env action).1.currentStep = env.currentStep + 1
    ∧ (stepModel env action).1.linkOpen = action
    ∧ (stepModel env action).1.usage = List.replicate env.edges.length 0 := by
  have hnone : openEdgesAux
      ({ env with currentStep := env.currentStep + 1, linkOpen := action } : Env).edges
      ({ env with currentStep := env.currentStep + 1, linkOpen := action } : Env).linkOpen
      = none :=
    openEdgesAux_none_of_short _ _ h
  have hflag := updateLinkUsage_flag
    ({ env with currentStep := env.currentStep + 1, linkOpen := action } : Env)
  rw [hnone] at hflag
  refine ⟨stepModel_none_of_flag env action (by simpa using hflag), ?_, ?_, ?_⟩
  · rw [stepModel_fst, updateLinkUsage_currentStep]
  · rw [stepModel_fst, updateLinkUsage_linkOpen]
  · rw [stepModel_fst, updateLinkUsage_usage, hnone]

/-- Witness for the amended C2: the empty action on the one-link `envW`. -/
theorem step_short_action_mutates_witness :
    (stepModel envW []).2 = none
    ∧ (stepModel envW []).1.currentStep = envW.currentStep + 1
    ∧ (stepModel envW []).1.linkOpen = []
    ∧ (stepModel envW []).1.usage = List.replicate envW.edges.length 0 :=
  step_short_action_mutates envW [] (by decide)

/-- C6: `reset()` zeroes the step counter; every `step()` call increments it
exactly once (also on failing calls) and leaves the horizon unchanged; the
returned `done` flag is true exactly when the incremented counter has reached
`maxSteps`; and once a call returned `done = true`, the next call (which is
still accepted and still increments the counter) again returns
`done = true`. -/
theorem step_counter_done (env : Env) (raw : Nat → Nat → Nat) (action action2 : List Nat) :
    (resetModel env raw).1.currentStep = 0
    ∧ (stepModel env action).1.currentStep = env.currentStep + 1
    ∧ (stepModel env action).1.maxSteps = env.maxSteps
    ∧ (∀ obs r d info, (stepModel env action).2 = some (obs, r, d, info) →
        (d = true ↔ env.maxSteps ≤ env.currentStep + 1))
    ∧ (∀ obs r d info obs2 r2 d2 info2,
        (stepModel env action).2 = some (obs, r, d, info) → d = true →
        (stepModel (stepModel env action).1 action2).2 = some (obs2, r2, d2, info2) →
        d2 = true) := by
  have hcs : (stepModel env action).1.currentStep = env.currentStep + 1 := by
    rw [stepModel_fst]; exact updateLinkUsage_currentStep _
  have hms : (stepModel env action).1.maxSteps = env.maxSteps := by
    rw [stepModel_fst]; exact updateLinkUsage_maxSteps _
  refine ⟨?_, hcs, hms, ?_, ?_⟩
  · exact updateLinkUsage_currentStep _
  · intro obs r d info h
    obtain ⟨-, -, -, hd, -⟩ := stepModel_some_inv env action obs r d info h
    rw [hcs, hms] at hd
    subst hd
    exact decide_eq_true_iff
  · intro obs r d info obs2 r2 d2 info2 h hdt h2
    obtain ⟨-, -, -, hd, -⟩ := stepModel_some_inv env action obs r d info h
    rw [hcs, hms] at hd
    rw [hd] at hdt
    have hle : env.maxSteps ≤ env.currentStep + 1 := by
      simpa using decide_eq_true_iff.1 hdt
    obtain ⟨-, -, -, hd2, -⟩ :=
      stepModel_some_inv (stepModel env action).1 action2 obs2 r2 d2 info2 h2
    have hcs2 : (stepModel (stepModel env action).1 action2).1.currentStep
        = env.currentStep + 1 + 1 := by
      rw [stepModel_fst, updateLinkUsage_currentStep]; simp [hcs]
    have hms2 : (stepModel (stepModel env action).1 action2).1.maxSteps = env.maxSteps := by
      rw [stepModel_fst, updateLinkUsage_maxSteps]; simp [hms]
    rw [hcs2, hms2] at hd2
    rw [hd2]
    exact decide_eq_true (by omega)

/-- Witness for C6 on `envD` (horizon 1): the first step returns
`done = true` and the follow-up step still returns `done = true`. -/
theorem step_counter_done_witness :
    ((true = true) ↔ envD.maxSteps ≤ envD.currentStep + 1) ∧ (true = true) :=
  ⟨(step_counter_done envD (fun _ _ => 0) [1] [1]).2.2.2.1
     (getObservation (stepModel envD [1]).1.edges (stepModel envD [1]).1.usage
       (stepModel envD [1]).1.linkOpen)
     (-1) true 1 rfl,
   (step_counter_done envD (fun _ _ => 0) [1] [1]).2.2.2.2
     (getObservation (stepModel envD [1]).1.edges (stepModel envD [1]).1.usage
       (stepModel envD [1]).1.linkOpen)
     (-1) true 1
     (getObservation (stepModel (stepModel envD [1]).1 [1]).1.edges
       (stepModel (stepModel envD [1]).1 [1]).1.usage
       (stepModel (stepModel envD [1]).1 [1]).1.linkOpen)
     (-1) true 1 rfl rfl rfl⟩

/-- C7: the routing recomputation is a function of the topology, the
link-state vector, and the demand matrix alone — two environments agreeing on
those (but with arbitrary stale usage vectors or counters) produce identical
usage vectors, and re-running the computation on its own output state changes
nothing. -/
theorem routing_deterministic_stateless (e1 e2 : Env)
    (h1 : e1.edges = e2.edges) (h2 : e1.linkOpen = e2.linkOpen)
    (h3 : e1.traffic = e2.traffic) (h4 : e1.numNodes = e2.numNodes) :
    (updateLinkUsage e1).1.usage = (updateLinkUsage e2).1.usage
    ∧ (updateLinkUsage (updateLinkUsage e1).1).1.usage = (updateLinkUsage e1).1.usage := by
  have key : ∀ f1 f2 : Env, f1.edges = f2.edges → f1.linkOpen = f2.linkOpen →
      f1.traffic = f2.traffic → f1.numNodes = f2.numNodes →
      (updateLinkUsage f1).1.usage = (updateLinkUsage f2).1.usage := by
    intro f1 f2 g1 g2 g3 g4
    rw [updateLinkUsage_usage, updateLinkUsage_usage, g1, g2, g3, g4]
  refine ⟨key e1 e2 h1 h2 h3 h4, ?_⟩
  exact key _ _ (updateLinkUsage_edges _) (updateLinkUsage_linkOpen _)
    (updateLinkUsage_traffic _) (updateLinkUsage_numNodes _)

/-- Witness for C7: `envW2` differs from `envW` only in its stale usage
vector and step counter, yet routing yields the same usage. -/
theorem routing_deterministic_stateless_witness :
    (updateLinkUsage envW).1.usage = (updateLinkUsage envW2).1.usage
    ∧ (updateLinkUsage (updateLinkUsage envW).1).1.usage = (updateLinkUsage envW).1.usage :=
  routing_deterministic_stateless envW envW2 rfl rfl rfl rfl

/-! ### Stepping with every link closed -/

theorem updateLinkUsage_usage_of_none (env : Env)
    (h : openEdgesAux env.edges env.linkOpen = none) :
    (updateLinkUsage env).1.usage = List.replicate env.edges.length 0 := by
  rw [updateLinkUsage_usage, h]

theorem updateLinkUsage_usage_of_open (env : Env) (oes : List LinkE)
    (h : openEdgesAux env.edges env.linkOpen = some oes) :
    (updateLinkUsage env).1.usage = routeAllDemands env.numNodes env.edges env.traffic oes := by
  rw [updateLinkUsage_usage, h]

theorem stepModel_snd_eq (env : Env) (action : List Nat)
    (hflag : (updateLinkUsage
      { env with currentStep := env.currentStep + 1, linkOpen := action }).2 = true) :
    (stepModel env action).2 =
      some (getObservation (stepModel env action).1.edges (stepModel env action).1.usage
          (stepModel env action).1.linkOpen,
        -((countOverloaded (stepModel env action).1.edges (stepModel env action).1.usage : Nat) : Int),
        decide ((stepModel env action).1.currentStep ≥ (stepModel env action).1.maxSteps),
        countOverloaded (stepModel env action).1.edges (stepModel env action).1.usage) := by
  rcases hu : updateLinkUsage { env with currentStep := env.currentStep + 1, linkOpen := action }
    with ⟨env2, flag⟩
  rw [hu] at hflag
  cases flag with
  | false => simp at hflag
  | true =>
      have hfst : (stepModel env action).1 = env2 := by unfold stepModel; rw [hu]
      rw [hfst]
      unfold stepModel; rw [hu]

theorem bfs_empty_adj (t s : Nat) (hst : s ≠ t) (f : Nat) (vis : List Nat) :
    bfs (adjOf []) t (f + 2) [[s]] vis = none := by
  show bfs (adjOf []) t (f + 1 + 1) [[s]] vis = none
  simp [bfs, adjOf, hst]

theorem routeAllDemands_no_open (n : Nat) (es : List LinkE) (tr : Nat → Nat → Nat) :
    routeAllDemands n es tr [] = List.replicate es.length 0 := by
  unfold routeAllDemands
  have hfold : ∀ (prs : List (Nat × Nat)) (us : List Nat),
      (prs.foldl
        (fun us pr =>
          if tr pr.1 pr.2 > 0 ∧ pr.1 ≠ pr.2 then
            match bfs (adjOf []) pr.2 (bfsFuel n es) [[pr.1]] [pr.1] with
            | some path => addPathUsage es (tr pr.1 pr.2) path us
            | none => us
          else us)
        us) = us := by
    intro prs
    induction prs with
    | nil => intro us; rfl
    | cons pr prs ih =>
        intro us
        rw [List.foldl_cons]
        have hstep : (if tr pr.1 pr.2 > 0 ∧ pr.1 ≠ pr.2 then
            match bfs (adjOf []) pr.2 (bfsFuel n es) [[pr.1]] [pr.1] with
            | some path => addPathUsage es (tr pr.1 pr.2) path us
            | none => us
          else us) = us := by
          by_cases hc : tr pr.1 pr.2 > 0 ∧ pr.1 ≠ pr.2
          · rw [if_pos hc,
              show bfsFuel n es = 2 * es.length + n + 2 from rfl,
              bfs_empty_adj pr.2 pr.1 hc.2 (2 * es.length + n) [pr.1]]
          · rw [if_neg hc]
        rw [hstep, ih us]
  rw [hfold]

/-- C5: stepping with the all-zeros action (every link closed) produces an
all-zero usage vector and, since no link can then exceed its capacity, an
overload count of `0` and reward `0`, whatever the demand matrix and the
topology are. -/
theorem step_all_zero_action (env : Env) :
    (stepModel env (List.replicate env.edges.length 0)).1.usage
      = List.replicate env.edges.length 0
    ∧ ∃ obs d,
        (stepModel env (List.replicate env.edges.length 0)).2 = some (obs, 0, d, 0) := by
  have hopen : openEdgesAux
      ({ env with currentStep := env.currentStep + 1, linkOpen := List.replicate env.edges.length 0 } : Env).edges
      ({ env with currentStep := env.currentStep + 1, linkOpen := List.replicate env.edges.length 0 } : Env).linkOpen
      = some [] :=
    openEdgesAux_zeros env.edges
  have hflag : (updateLinkUsage
      { env with currentStep := env.currentStep + 1, linkOpen := List.replicate env.edges.length 0 }).2 = true := by
    rw [updateLinkUsage_flag, hopen]; rfl
  have husage : (stepModel env (List.replicate env.edges.length 0)).1.usage
      = List.replicate env.edges.length 0 := by
    rw [stepModel_fst, updateLinkUsage_usage_of_open _ _ hopen]
    exact routeAllDemands_no_open _ _ _
  have hcount : countOverloaded
      (stepModel env (List.replicate env.edges.length 0)).1.edges
      (stepModel env (List.replicate env.edges.length 0)).1.usage = 0 := by
    rw [husage]; exact countOverloaded_replicate_zero _ _
  refine ⟨husage,
    getObservation (stepModel env (List.replicate env.edges.length 0)).1.edges
      (stepModel env (List.replicate env.edges.length 0)).1.usage
      (stepModel env (List.replicate env.edges.length 0)).1.linkOpen,
    decide ((stepModel env (List.replicate env.edges.length 0)).1.currentStep
      ≥ (stepModel env (List.replicate env.edges.length 0)).1.maxSteps), ?_⟩
  rw [stepModel_snd_eq env _ hflag, hcount]
  norm_num

/-! ### Observation layout -/

theorem getObservation_length :
    ∀ (es : List LinkE) (us lo : List Nat), us.length = es.length →
      es.length ≤ lo.length → (getObservation es us lo).length = 2 * es.length := by
  intro es
  induction es with
  | nil => intro us lo _ _; cases us <;> cases lo <;> rfl
  | cons e es ih =>
      intro us lo h1 h2
      cases us with
      | nil => simp at h1
      | cons x xs =>
          cases lo with
          | nil => simp at h2
          | cons b bs =>
              have h1b : xs.length = es.length := by simpa using h1
              have h2b : es.length ≤ bs.length := by simpa using h2
              simp only [getObservation, List.length_cons, ih xs bs h1b h2b]
              omega

theorem getObservation_getD_even :
    ∀ (es : List LinkE) (us lo : List Nat) (i : Nat), i < es.length →
      us.length = es.length → es.length ≤ lo.length →
      (getObservation es us lo).getD (2 * i) 0 =
        if 0 < (es.getD i default).cap
        then (us.getD i 0 : ℚ) / ((es.getD i default).cap : ℚ) else 0 := by
  intro es
  induction es with
  | nil => intro us lo i hi; simp at hi
  | cons e es ih =>
      intro us lo i hi h1 h2
      cases us with
      | nil => simp at h1
      | cons x xs =>
          cases lo with
          | nil => simp at h2
          | cons b bs =>
              cases i with
              | zero => simp [getObservation]
              | succ i2 =>
                  have h2i : 2 * (i2 + 1) = 2 * i2 + 1 + 1 := by omega
                  rw [h2i]
                  simp only [getObservation, List.getD_cons_succ]
                  exact ih xs bs i2 (by simpa using hi) (by simpa using h1)
                    (by simpa using h2)

theorem getObservation_getD_odd :
    ∀ (es : List LinkE) (us lo : List Nat) (i : Nat), i < es.length →
      us.length = es.length → es.length ≤ lo.length →
      (getObservation es us lo).getD (2 * i + 1) 0 = (lo.getD i 0 : ℚ) := by
  intro es
  induction es with
  | nil => intro us lo i hi; simp at hi
  | cons e es ih =>
      intro us lo i hi h1 h2
      cases us with
      | nil => simp at h1
      | cons x xs =>
          cases lo with
          | nil => simp at h2
          | cons b bs =>
              cases i with
              | zero => simp [getObservation]
              | succ i2 =>
                  have h2i : 2 * (i2 + 1) + 1 = 2 * i2 + 1 + 1 + 1 := by omega
                  rw [h2i]
                  simp only [getObservation, List.getD_cons_succ]
                  exact ih xs bs i2 (by simpa using hi) (by simpa using h1)
                    (by simpa using h2)

theorem resetModel_state (env : Env) (raw : Nat → Nat → Nat) :
    (resetModel env raw).1 =
      (updateLinkUsage
        { env with
          currentStep := 0
          traffic := fun i j => if i = j then 0 else raw i j
          usage := List.replicate env.edges.length 0
          linkOpen := List.replicate env.edges.length 1 }).1 := rfl

theorem resetModel_obs (env : Env) (raw : Nat → Nat → Nat) :
    (resetModel env raw).2 =
      getObservation (resetModel env raw).1.edges (resetModel env raw).1.usage
        (resetModel env raw).1.linkOpen := rfl

/-- C8: every observation returned by `reset()` or by a successful `step()`
has exactly `2 × numLinks` entries, in fixed link order: entry `2i` is the
usage ratio `usage[i] / capacity[i]` (`0` by convention when the capacity is
`0`) and entry `2i+1` is the link's open flag (`1` for every link after
`reset`, the `i`-th action entry after `step`). -/
theorem observation_layout (env : Env) (raw : Nat → Nat → Nat) (action : List Nat) :
    ((resetModel env raw).2.length = 2 * env.edges.length
      ∧ ∀ i, i < env.edges.length →
          (resetModel env raw).2.getD (2 * i) 0 =
            (if 0 < (env.edges.getD i default).cap
             then ((resetModel env raw).1.usage.getD i 0 : ℚ) /
               ((env.edges.getD i default).cap : ℚ)
             else 0)
          ∧ (resetModel env raw).2.getD (2 * i + 1) 0 = 1)
    ∧ (∀ obs r d info, (stepModel env action).2 = some (obs, r, d, info) →
        obs.length = 2 * env.edges.length
        ∧ ∀ i, i < env.edges.length →
            obs.getD (2 * i) 0 =
              (if 0 < (env.edges.getD i default).cap
               then ((stepModel env action).1.usage.getD i 0 : ℚ) /
                 ((env.edges.getD i default).cap : ℚ)
               else 0)
            ∧ obs.getD (2 * i + 1) 0 = (action.getD i 0 : ℚ)) := by
  have hR1 : (resetModel env raw).1.edges = env.edges := by
    rw [resetModel_state]; exact updateLinkUsage_edges _
  have hRlo : (resetModel env raw).1.linkOpen = List.replicate env.edges.length 1 := by
    rw [resetModel_state]; exact updateLinkUsage_linkOpen _
  have hRul : (resetModel env raw).1.usage.length = env.edges.length := by
    rw [resetModel_state]; exact updateLinkUsage_usage_length _
  have hRobs : (resetModel env raw).2 =
      getObservation env.edges (resetModel env raw).1.usage
        (List.replicate env.edges.length 1) := by
    rw [resetModel_obs, hR1, hRlo]
  constructor
  · constructor
    · rw [hRobs]; exact getObservation_length _ _ _ hRul (by simp)
    · intro i hi
      constructor
      · rw [hRobs]; exact getObservation_getD_even _ _ _ i hi hRul (by simp)
      · rw [hRobs, getObservation_getD_odd _ _ _ i hi hRul (by simp),
          getD_replicate_lt _ _ _ _ hi]
        norm_num
  · intro obs r d info h
    obtain ⟨hflag, hobs, -, -, -⟩ := stepModel_some_inv env action obs r d info h
    have hS1 : (stepModel env action).1.edges = env.edges := by
      rw [stepModel_fst]; exact updateLinkUsage_edges _
    have hSlo : (stepModel env action).1.linkOpen = action := by
      rw [stepModel_fst]; exact updateLinkUsage_linkOpen _
    have hSul : (stepModel env action).1.usage.length = env.edges.length := by
      rw [stepModel_fst]; exact updateLinkUsage_usage_length _
    have hlen : env.edges.length ≤ action.length := by
      rw [updateLinkUsage_flag] at hflag
      cases hoe : openEdgesAux
          ({ env with currentStep := env.currentStep + 1, linkOpen := action } : Env).edges
          ({ env with currentStep := env.currentStep + 1, linkOpen := action } : Env).linkOpen with
      | none => rw [hoe] at hflag; simp at hflag
      | some oes => exact openEdgesAux_some_le _ _ _ hoe
    rw [hobs, hS1, hSlo]
    refine ⟨getObservation_length _ _ _ hSul hlen, ?_⟩
    intro i hi
    exact ⟨getObservation_getD_even _ _ _ i hi hSul hlen,
      getObservation_getD_odd _ _ _ i hi hSul hlen⟩

/-- Witness for C8 on `envW`: after `reset` the observation has length 2 and
its open-flag entry equals 1. -/
theorem observation_layout_witness :
    (resetModel envW (fun _ _ => 0)).2.getD 1 0 = 1
    ∧ (resetModel envW (fun _ _ => 0)).2.length = 2 * envW.edges.length := by
  refine ⟨?_, (observation_layout envW (fun _ _ => 0) [1]).1.1⟩
  have h := ((observation_layout envW (fun _ _ => 0) [1]).1.2 0 (by decide)).2
  simpa using h

/-! ### Degree bounds for the topology generator -/

theorem countPairs_eq_zero_of_not_mem :
    ∀ (l : List Nat) (z : Nat), z ∉ l → countPairs l z = 0 := by
  intro l
  induction l with
  | nil => intro z _; rfl
  | cons x t ih =>
      intro z hz
      cases t with
      | nil => rfl
      | cons y rest =>
          have hx : x ≠ z := fun h => hz (by rw [← h]; exact List.mem_cons_self _ _)
          have hy : y ≠ z := fun h =>
            hz (List.mem_cons_of_mem _ (by rw [← h]; exact List.mem_cons_self _ _))
          have hz2 : z ∉ y :: rest := fun h => hz (List.mem_cons_of_mem _ h)
          simp only [countPairs]
          rw [if_neg (by rintro (h | h); exacts [hx h, hy h]), ih z hz2]

theorem countPairs_cons_self_le_one (l : List Nat) (z : Nat) (hz : z ∉ l) :
    countPairs (z :: l) z ≤ 1 := by
  cases l with
  | nil => exact Nat.zero_le 1
  | cons y rest =>
      show (if z = z ∨ y = z then 1 else 0) + countPairs (y :: rest) z ≤ 1
      rw [if_pos (Or.inl rfl), countPairs_eq_zero_of_not_mem _ _ hz]

theorem countPairs_le_two : ∀ (l : List Nat) (z : Nat), l.Nodup → countPairs l z ≤ 2 := by
  intro l
  induction l with
  | nil => intro z _; exact Nat.zero_le 2
  | cons x t ih =>
      intro z hnd
      have hx : x ∉ t := (List.nodup_cons.1 hnd).1
      have hnd2 : t.Nodup := (List.nodup_cons.1 hnd).2
      cases t with
      | nil => exact Nat.zero_le 2
      | cons y rest =>
          show (if x = z ∨ y = z then 1 else 0) + countPairs (y :: rest) z ≤ 2
          by_cases hxz : x = z
          · rw [if_pos (Or.inl hxz)]
            have h0 := countPairs_eq_zero_of_not_mem (y :: rest) z (hxz ▸ hx)
            omega
          · by_cases hyz : y = z
            · rw [if_pos (Or.inr hyz)]
              have h1 : countPairs (y :: rest) z ≤ 1 := by
                rw [← hyz]
                exact countPairs_cons_self_le_one rest y (List.nodup_cons.1 hnd2).1
              omega
            · rw [if_neg (by rintro (h | h); exacts [hxz h, hyz h])]
              have h1 := ih z hnd2
              omega

theorem degree_append (g1 g2 : List LinkE) (x : Nat) :
    degree (g1 ++ g2) x = degree g1 x + degree g2 x := by
  induction g1 with
  | nil => simp [degree]
  | cons e g ih =>
      rw [List.cons_append]
      show (if e.u = x then 1 else 0) + (if e.v = x then 1 else 0) + degree (g ++ g2) x
          = ((if e.u = x then 1 else 0) + (if e.v = x then 1 else 0) + degree g x)
            + degree g2 x
      rw [ih]
      omega

theorem degree_snoc (g : List LinkE) (e : LinkE) (x : Nat) :
    degree (g ++ [e]) x
      = degree g x + ((if e.u = x then 1 else 0) + (if e.v = x then 1 else 0)) := by
  rw [degree_append]
  simp only [degree]
  omega

theorem if_pair_le (a b x : Nat) (hab : a ≠ b) :
    (if a = x then 1 else 0) + (if b = x then 1 else 0)
      ≤ (if a = x ∨ b = x then 1 else 0) := by
  by_cases hax : a = x
  · have hbx : b ≠ x := fun h => hab (by rw [hax, h])
    simp [hax, hbx]
  · by_cases hbx : b = x
    · simp [hax, hbx]
    · simp [hax, hbx]

theorem buildPath_degree_le (cap : Nat) :
    ∀ (l : List Nat) (g : List LinkE) (x : Nat), l.Nodup →
      degree (buildPath cap g l) x ≤ degree g x + countPairs l x := by
  intro l
  induction l with
  | nil => intro g x _; simp [buildPath, countPairs]
  | cons a t ih =>
      intro g x hnd
      cases t with
      | nil => simp [buildPath, countPairs]
      | cons b rest =>
          have hnd2 : (b :: rest).Nodup := (List.nodup_cons.1 hnd).2
          have hab : a ≠ b := fun h =>
            (List.nodup_cons.1 hnd).1 (by rw [h]; exact List.mem_cons_self _ _)
          simp only [buildPath]
          refine Nat.le_trans (ih _ x hnd2) ?_
          simp only [countPairs]
          have hg2 : degree (if hasEdge g a b then g else g ++ [⟨a, b, cap⟩]) x
              ≤ degree g x + (if a = x ∨ b = x then 1 else 0) := by
            by_cases he : hasEdge g a b
            · rw [if_pos he]; exact Nat.le_add_right _ _
            · rw [if_neg he, degree_snoc]
              have hle := if_pair_le a b x hab
              dsimp only at hle ⊢
              omega
          omega

theorem addExtra_degree_le (maxI cap : Nat) :
    ∀ (cands : List (Nat × Nat)) (g : List LinkE),
      (∀ p ∈ cands, p.1 ≠ p.2) → (∀ x, degree g x ≤ maxI) →
      ∀ x, degree (addExtra maxI cap g cands) x ≤ maxI := by
  intro cands
  induction cands with
  | nil => intro g _ hg x; exact hg x
  | cons pr rest ih =>
      intro g hne hg x
      rcases pr with ⟨u, v⟩
      simp only [addExtra]
      refine ih _ (fun p hp => hne p (List.mem_cons_of_mem _ hp)) ?_ x
      intro y
      by_cases hc : degree g u < maxI ∧ degree g v < maxI
      · rw [if_pos hc, degree_snoc]
        have huv : u ≠ v := hne (u, v) (List.mem_cons_self _ _)
        dsimp only
        by_cases huy : u = y
        · have hvy : v ≠ y := fun h => huv (by rw [huy, h])
          have hlt := hc.1
          rw [huy] at hlt
          rw [if_pos huy, if_neg hvy]
          omega
        · rw [if_neg huy]
          by_cases hvy : v = y
          · have hlt := hc.2
            rw [hvy] at hlt
            rw [if_pos hvy]
            omega
          · rw [if_neg hvy]
            have := hg y
            omega
      · rw [if_neg hc]; exact hg y

theorem possibleEdges_lt (g : List LinkE) (n : Nat) :
    ∀ p ∈ possibleEdges g n, p.1 < p.2 := by
  intro p hp
  unfold possibleEdges at hp
  rcases List.mem_flatMap.1 hp with ⟨i, hi, hpi⟩
  rcases List.mem_filterMap.1 hpi with ⟨j, hj, hfe⟩
  by_cases he : hasEdge g i j
  · rw [if_pos he] at hfe; simp at hfe
  · rw [if_neg he] at hfe
    have hij : i < j := by
      have := (List.mem_filter.1 hj).2
      simpa using this
    have hp2 : p = (i, j) := by simpa using hfe.symm
    rw [hp2]
    exact hij

/-- C3 counterexample: with `numNodes = 3` and `maxInterfaces = 1` (which the
constructor permits), the unconditional spanning-path phase already gives the
middle node of the shuffled order degree `2 > maxInterfaces`, so the
per-node interface invariant fails for `maxInterfaces = 1`. -/
theorem degree_limit_cex :
    (1 : Nat) ≥ 1
    ∧ [0, 1, 2].Perm (List.range 3)
    ∧ [(0, 2)].Perm (possibleEdges (buildPath 100 [] [0, 1, 2]) 3)
    ∧ degree (buildTopology 3 1 100 [0, 1, 2] [(0, 2)]) 1 = 2 := by
  refine ⟨Nat.le_refl 1, ?_, ?_, by decide⟩
  · have h : List.range 3 = [0, 1, 2] := rfl
    rw [h]
  · have h : possibleEdges (buildPath 100 [] [0, 1, 2]) 3 = [(0, 2)] := rfl
    rw [h]

/-- C3 (amended): for every topology produced by the generator with
`maxInterfaces ≥ 2`, every node's link count is at most `maxInterfaces`
(phase 1 gives each node at most two links; phase 2 checks the limit before
adding).  For `maxInterfaces = 1` the bound can be violated by the
spanning-path phase, as the counterexample shows. -/
theorem degree_le_max_interfaces (n maxI cap : Nat) (perm : List Nat)
    (order : List (Nat × Nat)) (hperm : perm.Perm (List.range n))
    (horder : order.Perm (possibleEdges (buildPath cap [] perm) n))
    (hmaxI : 2 ≤ maxI) (x : Nat) :
    degree (buildTopology n maxI cap perm order) x ≤ maxI := by
  have hnd : perm.Nodup := hperm.nodup_iff.2 (List.nodup_range n)
  have hbase : ∀ y, degree (buildPath cap [] perm) y ≤ maxI := by
    intro y
    have h1 := buildPath_degree_le cap perm [] y hnd
    have h2 := countPairs_le_two perm y hnd
    simp only [degree] at h1
    omega
  have hne : ∀ p ∈ order, p.1 ≠ p.2 := by
    intro p hp
    have hp2 : p ∈ possibleEdges (buildPath cap [] perm) n := horder.mem_iff.1 hp
    have := possibleEdges_lt _ _ p hp2
    omega
  exact addExtra_degree_le maxI cap order (buildPath cap [] perm) hne hbase x

/-- Witness for the amended C3 on a concrete 3-node generation run. -/
theorem degree_le_max_interfaces_witness :
    degree (buildTopology 3 2 100 [0, 1, 2] [(0, 2)]) 1 ≤ 2 := by
  refine degree_le_max_interfaces 3 2 100 [0, 1, 2] [(0, 2)] ?_ ?_ (Nat.le_refl 2) 1
  · have h : List.range 3 = [0, 1, 2] := rfl
    rw [h]
  · have h : possibleEdges (buildPath 100 [] [0, 1, 2]) 3 = [(0, 2)] := rfl
    rw [h]

/-! ### Connectivity of the generated topology -/

theorem hasEdge_iff (g : List LinkE) (x y : Nat) :
    hasEdge g x y = true ↔ Adj g x y := by
  unfold hasEdge Adj
  simp [List.any_eq_true]

theorem Adj_mono {g g2 : List LinkE} (hsub : g ⊆ g2) {x y : Nat} (h : Adj g x y) :
    Adj g2 x y := by
  obtain ⟨e, he, hl⟩ := h
  exact ⟨e, hsub he, hl⟩

theorem Adj_symm {g : List LinkE} {x y : Nat} (h : Adj g x y) : Adj g y x := by
  obtain ⟨e, he, hl⟩ := h
  exact ⟨e, he, Or.symm hl⟩

theorem buildPath_subset (cap : Nat) :
    ∀ (l : List Nat) (g : List LinkE), g ⊆ buildPath cap g l := by
  intro l
  induction l with
  | nil => intro g; exact fun a h => h
  | cons a t ih =>
      intro g
      cases t with
      | nil => exact fun a h => h
      | cons b rest =>
          simp only [buildPath]
          have h1 : g ⊆ (if hasEdge g a b then g else g ++ [⟨a, b, cap⟩]) := by
            by_cases he : hasEdge g a b
            · rw [if_pos he]; exact fun a h => h
            · rw [if_neg he]; exact List.subset_append_left _ _
          exact h1.trans (ih _)

theorem addExtra_subset (maxI cap : Nat) :
    ∀ (cands : List (Nat × Nat)) (g : List LinkE), g ⊆ addExtra maxI cap g cands := by
  intro cands
  induction cands with
  | nil => intro g; exact fun a h => h
  | cons pr rest ih =>
      intro g
      rcases pr with ⟨u, v⟩
      simp only [addExtra]
      have h1 : g ⊆ (if degree g u < maxI ∧ degree g v < maxI
          then g ++ [⟨u, v, cap⟩] else g) := by
        by_cases hc : degree g u < maxI ∧ degree g v < maxI
        · rw [if_pos hc]; exact List.subset_append_left _ _
        · rw [if_neg hc]; exact fun a h => h
      exact h1.trans (ih _)

theorem buildPath_chain (cap : Nat) :
    ∀ (l : List Nat) (g : List LinkE),
      List.Chain' (fun a b => Adj (buildPath cap g l) a b) l := by
  intro l
  induction l with
  | nil => intro g; exact List.chain'_nil
  | cons a t ih =>
      intro g
      cases t with
      | nil => exact List.chain'_singleton a
      | cons b rest =>
          rw [List.chain'_cons]
          constructor
          · have hadj : Adj (if hasEdge g a b then g else g ++ [⟨a, b, cap⟩]) a b := by
              by_cases he : hasEdge g a b
              · rw [if_pos he]; exact (hasEdge_iff g a b).1 he
              · rw [if_neg he]
                exact ⟨⟨a, b, cap⟩, by simp, Or.inl ⟨rfl, rfl⟩⟩
            have hsub := buildPath_subset cap (b :: rest)
              (if hasEdge g a b then g else g ++ [⟨a, b, cap⟩])
            simp only [buildPath]
            exact Adj_mono hsub hadj
          · have hrec := ih (if hasEdge g a b then g else g ++ [⟨a, b, cap⟩])
            simp only [buildPath]
            exact hrec

theorem chain_reach_head (G : List LinkE) :
    ∀ (l : List Nat) (h0 : Nat), List.Chain' (Adj G) (h0 :: l) →
      ∀ b ∈ h0 :: l, Reach G h0 b := by
  intro l
  induction l with
  | nil =>
      intro h0 _ b hb
      have hb0 : b = h0 := by simpa using hb
      rw [hb0]
      exact Relation.ReflTransGen.refl
  | cons c t ih =>
      intro h0 hch b hb
      have hadj : Adj G h0 c := (List.chain'_cons.1 hch).1
      have hch2 : List.Chain' (Adj G) (c :: t) := (List.chain'_cons.1 hch).2
      rcases List.mem_cons.1 hb with hb1 | hb2
      · rw [hb1]; exact Relation.ReflTransGen.refl
      · exact Relation.ReflTransGen.trans (Relation.ReflTransGen.single hadj)
          (ih c hch2 b hb2)

theorem Reach_symm {G : List LinkE} {x y : Nat} (h : Reach G x y) : Reach G y x := by
  have hsymm : Symmetric (Adj G) := fun a b hab => Adj_symm hab
  exact Relation.ReflTransGen.symmetric hsymm h

/-- C4: every topology produced by the generator is connected — the first
construction phase links consecutive nodes of the shuffled node permutation
into a spanning path unconditionally, and the second phase only adds further
links. -/
theorem topology_connected (n maxI cap : Nat) (perm : List Nat)
    (order : List (Nat × Nat)) (hperm : perm.Perm (List.range n))
    (x y : Nat) (hx : x < n) (hy : y < n) :
    Reach (buildTopology n maxI cap perm order) x y := by
  have hxp : x ∈ perm := hperm.mem_iff.2 (List.mem_range.2 hx)
  have hyp : y ∈ perm := hperm.mem_iff.2 (List.mem_range.2 hy)
  have hsub : buildPath cap [] perm ⊆ buildTopology n maxI cap perm order :=
    addExtra_subset maxI cap order _
  have hchain : List.Chain' (Adj (buildTopology n maxI cap perm order)) perm := by
    have h0 := buildPath_chain cap perm []
    exact h0.imp fun a b hab => Adj_mono hsub hab
  cases perm with
  | nil => simp at hxp
  | cons h0 t =>
      exact Relation.ReflTransGen.trans
        (Reach_symm (chain_reach_head _ t h0 hchain x hxp))
        (chain_reach_head _ t h0 hchain y hyp)

/-- Witness for C4 on a concrete 2-node generation run. -/
theorem topology_connected_witness :
    Reach (buildTopology 2 4 100 [0, 1] []) 0 1 := by
  refine topology_connected 2 4 100 [0, 1] [] ?_ 0 1 (by decide) (by decide)
  have h : List.range 2 = [0, 1] := rfl
  rw [h]

/-! ### Paths produced by the BFS stay inside the open subgraph -/

/-- Two nodes related by the adjacency function in either direction. -/
def adjRel (adj : Nat → List Nat) (a b : Nat) : Prop :=
  b ∈ adj a ∨ a ∈ adj b

theorem adjRel_symm (adj : Nat → List Nat) {a b : Nat} (h : adjRel adj a b) :
    adjRel adj b a := Or.symm h

theorem linksNode_symm {e : LinkE} {x y : Nat} (h : linksNode e x y) :
    linksNode e y x := Or.symm h

theorem linksNode_pair (e f : LinkE) (x y : Nat) (he : linksNode e x y)
    (hf : linksNode f x y) : linksNode e f.u f.v := by
  rcases hf with ⟨hu, hv⟩ | ⟨hu, hv⟩
  · rw [hu, hv]; exact he
  · rw [hu, hv]; exact linksNode_symm he

theorem adjOf_mem (oes : List LinkE) (x y : Nat) (h : y ∈ adjOf oes x) :
    ∃ e ∈ oes, linksNode e x y := by
  unfold adjOf at h
  rcases List.mem_filterMap.1 h with ⟨e, he, hfe⟩
  by_cases h1 : e.u = x
  · rw [if_pos h1] at hfe
    exact ⟨e, he, Or.inl ⟨h1, by simpa using hfe⟩⟩
  · rw [if_neg h1] at hfe
    by_cases h2 : e.v = x
    · rw [if_pos h2] at hfe
      exact ⟨e, he, Or.inr ⟨by simpa using hfe, h2⟩⟩
    · rw [if_neg h2] at hfe; simp at hfe

theorem bfs_chain (adj : Nat → List Nat) (t : Nat) :
    ∀ (fuel : Nat) (q : List (List Nat)) (vis : List Nat) (path : List Nat),
      (∀ p ∈ q, p ≠ [] ∧ List.Chain' (adjRel adj) p) →
      bfs adj t fuel q vis = some path → List.Chain' (adjRel adj) path := by
  intro fuel
  induction fuel with
  | zero => intro q vis path _ h; simp [bfs] at h
  | succ f ih =>
      intro q vis path hq h
      cases q with
      | nil => simp [bfs] at h
      | cons p qrest =>
          cases p with
          | nil => exact absurd rfl (hq [] (List.mem_cons_self _ _)).1
          | cons x prest =>
              simp only [bfs] at h
              by_cases hxt : x = t
              · rw [if_pos hxt] at h
                have hrev : (x :: prest).reverse = path := by simpa using h
                have hp := (hq (x :: prest) (List.mem_cons_self _ _)).2
                rw [← hrev, List.chain'_reverse]
                exact hp.imp fun a b hab => adjRel_symm adj hab
              · rw [if_neg hxt] at h
                refine ih _ _ path ?_ h
                intro p2 hp2
                rcases List.mem_append.1 hp2 with hin | hin
                · exact hq p2 (List.mem_cons_of_mem _ hin)
                · rcases List.mem_map.1 hin with ⟨w, hw, rfl⟩
                  refine ⟨by simp, ?_⟩
                  rw [List.chain'_cons]
                  exact ⟨Or.inr (List.mem_filter.1 hw).1,
                    (hq (x :: prest) (List.mem_cons_self _ _)).2⟩

/-! ### `_edge_index` and open edges -/

theorem edgeIndexAux_spec :
    ∀ (es : List LinkE) (x y n idx : Nat), edgeIndexAux es x y n = some idx →
      n ≤ idx ∧ idx - n < es.length ∧ linksNode (es.getD (idx - n) default) x y := by
  intro es
  induction es with
  | nil => intro x y n idx h; simp [edgeIndexAux] at h
  | cons e es ih =>
      intro x y n idx h
      rw [edgeIndexAux] at h
      by_cases hl : linksNode e x y
      · rw [if_pos hl] at h
        have hn : n = idx := by simpa using h
        subst hn
        exact ⟨Nat.le_refl n, by simp, by simpa using hl⟩
      · rw [if_neg hl] at h
        obtain ⟨h1, h2, h3⟩ := ih x y (n + 1) idx h
        refine ⟨by omega, by simp only [List.length_cons]; omega, ?_⟩
        have hidx : idx - n = (idx - (n + 1)) + 1 := by omega
        rw [hidx, List.getD_cons_succ]
        exact h3

theorem edgeIndex_spec (es : List LinkE) (x y idx : Nat)
    (h : edgeIndex es x y = some idx) :
    idx < es.length ∧ linksNode (es.getD idx default) x y := by
  obtain ⟨-, h2, h3⟩ := edgeIndexAux_spec es x y 0 idx h
  constructor
  · simpa using h2
  · simpa using h3

theorem open_edge_index (es : List LinkE) (lo : List Nat) (oes : List LinkE)
    (hoes : openEdgesAux es lo = some oes) (hdist : edgesDistinct es)
    (a b idx : Nat) (hab : adjRel (adjOf oes) a b)
    (hidx : edgeIndex es a b = some idx) : lo.getD idx 0 = 1 := by
  have hedge : ∃ e ∈ oes, linksNode e a b := by
    rcases hab with h | h
    · exact adjOf_mem oes a b h
    · obtain ⟨e, he, hl⟩ := adjOf_mem oes b a h
      exact ⟨e, he, linksNode_symm hl⟩
  obtain ⟨e, he, hl⟩ := hedge
  obtain ⟨k, hk, hget, hlo⟩ := openEdgesAux_mem es lo oes hoes e he
  obtain ⟨hlt, hln⟩ := edgeIndex_spec es a b idx hidx
  have hkk : k = idx := by
    apply hdist k hk idx hlt
    rw [hget]
    exact linksNode_pair e (es.getD idx default) a b hl hln
  rw [← hkk]; exact hlo

theorem addPathUsage_keep (es : List LinkE) (lo : List Nat) (oes : List LinkE)
    (hoes : openEdgesAux es lo = some oes) (hdist : edgesDistinct es)
    (i : Nat) (hcl : lo.getD i 0 ≠ 1) (d : Nat) :
    ∀ (path : List Nat) (us : List Nat), List.Chain' (adjRel (adjOf oes)) path →
      us.getD i 0 = 0 → (addPathUsage es d path us).getD i 0 = 0 := by
  intro path
  induction path with
  | nil => intro us _ h0; exact h0
  | cons a t ih =>
      intro us hch h0
      cases t with
      | nil => exact h0
      | cons b rest =>
          have hch2 := List.chain'_cons.1 hch
          cases hidx : edgeIndex es a b with
          | none =>
              have heq : addPathUsage es d (a :: b :: rest) us
                  = addPathUsage es d (b :: rest) us := by
                simp only [addPathUsage, hidx]
              rw [heq]
              exact ih us hch2.2 h0
          | some idx =>
              have heq : addPathUsage es d (a :: b :: rest) us
                  = addPathUsage es d (b :: rest) (us.set idx (us.getD idx 0 + d)) := by
                simp only [addPathUsage, hidx]
              rw [heq]
              refine ih _ hch2.2 ?_
              have hlo1 := open_edge_index es lo oes hoes hdist a b idx hch2.1 hidx
              have hne : idx ≠ i := fun hh => hcl (by rw [← hh]; exact hlo1)
              rw [getD_set_ne 0 _ us idx i hne]
              exact h0

theorem routeAllDemands_keep (n : Nat) (es : List LinkE) (tr : Nat → Nat → Nat)
    (lo : List Nat) (oes : List LinkE) (hoes : openEdgesAux es lo = some oes)
    (hdist : edgesDistinct es) (i : Nat) (hcl : lo.getD i 0 ≠ 1) :
    (routeAllDemands n es tr oes).getD i 0 = 0 := by
  unfold routeAllDemands
  have hfold : ∀ (prs : List (Nat × Nat)) (us : List Nat), us.getD i 0 = 0 →
      ((prs.foldl
        (fun us pr =>
          if tr pr.1 pr.2 > 0 ∧ pr.1 ≠ pr.2 then
            match bfs (adjOf oes) pr.2 (bfsFuel n es) [[pr.1]] [pr.1] with
            | some path => addPathUsage es (tr pr.1 pr.2) path us
            | none => us
          else us)
        us)).getD i 0 = 0 := by
    intro prs
    induction prs with
    | nil => intro us h0; exact h0
    | cons pr prs ih =>
        intro us h0
        rw [List.foldl_cons]
        apply ih
        dsimp only
        by_cases hc : tr pr.1 pr.2 > 0 ∧ pr.1 ≠ pr.2
        · rw [if_pos hc]
          cases hb : bfs (adjOf oes) pr.2 (bfsFuel n es) [[pr.1]] [pr.1] with
          | none => simp only [hb]; exact h0
          | some path =>
              simp only [hb]
              have hch : List.Chain' (adjRel (adjOf oes)) path := by
                refine bfs_chain (adjOf oes) pr.2 (bfsFuel n es) [[pr.1]] [pr.1] path ?_ hb
                intro p hp
                have hp2 : p = [pr.1] := by simpa using hp
                subst hp2
                exact ⟨by simp, List.chain'_singleton _⟩
              exact addPathUsage_keep es lo oes hoes hdist i hcl _ path us hch h0
        · rw [if_neg hc]; exact h0
  exact hfold (allPairs n) _ (getD_replicate_zero _ _)

/-- C10: after every routing recomputation — both the one inside `step()`
(second conjunct, for the freshly installed action) and the underlying
`_update_link_usage` itself (first conjunct, hence also the call made by
`reset()`) — every link whose open flag is `0` carries usage exactly `0`:
traffic is only accumulated on links of the open subgraph.  The hypothesis
`edgesDistinct` states that `edge_list` holds no duplicate unordered pairs,
which `_build_topology` guarantees. -/
theorem closed_link_zero_usage (env : Env) (action : List Nat) (i : Nat)
    (hdist : edgesDistinct env.edges) :
    (env.linkOpen.getD i 0 = 0 → (updateLinkUsage env).1.usage.getD i 0 = 0)
    ∧ (action.getD i 0 = 0 → (stepModel env action).1.usage.getD i 0 = 0) := by
  constructor
  · intro hcl
    cases hoe : openEdgesAux env.edges env.linkOpen with
    | none =>
        rw [updateLinkUsage_usage_of_none env hoe]
        exact getD_replicate_zero _ _
    | some oes =>
        rw [updateLinkUsage_usage_of_open env oes hoe]
        exact routeAllDemands_keep _ _ _ _ _ hoe hdist i (by rw [hcl]; decide)
  · intro hcl
    rw [stepModel_fst]
    cases hoe : openEdgesAux env.edges action with
    | none =>
        rw [updateLinkUsage_usage_of_none _ hoe]
        exact getD_replicate_zero _ _
    | some oes =>
        rw [updateLinkUsage_usage_of_open _ oes hoe]
        exact routeAllDemands_keep _ _ _ _ _ hoe hdist i (by rw [hcl]; decide)

/-- Witness for C10: closing the only link of `envW` leaves its usage at 0
even though a demand exists between its endpoints. -/
theorem closed_link_zero_usage_witness :
    (stepModel envW [0]).1.usage.getD 0 0 = 0 :=
  (closed_link_zero_usage envW [0] 0 (by decide)).2 (by decide)

/-- C9 counterexample: constructing with `numNodes = 0`, `maxInterfaces = 0`
and `maxSteps = 0` succeeds — the out-of-range configuration is silently
accepted, not reported as a construction-time failure. -/
theorem init_nonpositive_accepted_cex : (initEnv 0 0 100 0 [] []).isSome = true := rfl

/-- C9 (amended): `__init__` performs no validation at all — construction
never fails, whatever the configuration values are. -/
theorem init_never_fails (n mi mc ms : Nat) (perm : List Nat) (order : List (Nat × Nat)) :
    (initEnv n mi mc ms perm order).isSome = true := rfl

end GreenNet
